import Mathlib

/-!
Verification development for the s3v version index (`s3v/versions.py`).

The Python module is shallowly embedded:
* Python `dict` (insertion-ordered, string keys) becomes `PyDict α`, an
  association list with Python's insert-or-overwrite-in-place semantics.
* `datetime` values carried in version records are timezone-aware UTC
  instants and are modelled as integers (epoch seconds); the result of the
  external `dateparser.parse` call is modelled as a wall-clock integer plus
  an optional UTC offset (`none` = timezone-naive), mirroring `tzinfo`.
* `datetime.isoformat` / `datetime.fromisoformat` are modelled as a decimal
  rendering of the instant and its parser (`isoformat` / `fromisoformat`);
  the JSON layer (`json.dump`/`json.load`) is modelled as the identity on
  the serialized structure, since it is external stdlib code.
* Python string operations used by the module (`startswith`, `endswith`,
  `int(...)` with whitespace stripping) are modelled on the character lists
  underlying `String`.
* A raised `ValueError` becomes `Except.error`; the two distinct `raise`
  sites of `translate_version` (out-of-range position vs. invalid
  specifier) map to the spec's `OutOfRangeError` / `InvalidSpecifierError`.
-/

/-- Python `dict` with string keys: an insertion-ordered association list. -/
abbrev PyDict (α : Type) := List (String × α)

/-- Python `k in d` (key membership). -/
def dictContains (d : PyDict α) (k : String) : Bool :=
  d.any (fun p => p.1 == k)

/-- Python `d[k] = v`: overwrite in place if the key exists, else append. -/
def dictInsert (d : PyDict α) (k : String) (v : α) : PyDict α :=
  if dictContains d k then
    d.map (fun p => if p.1 == k then (k, v) else p)
  else
    d ++ [(k, v)]

/-- Python `d.values()` in insertion order. -/
def dictValues (d : PyDict α) : List α := d.map Prod.snd

/-- Python `d.get(k)` / `d[k]` lookup. -/
def dictGet? (d : PyDict α) (k : String) : Option α :=
  (d.find? (fun p => p.1 == k)).map Prod.snd

/-- Python `s.startswith(pre)`. -/
def pyStartsWith (s pre : String) : Bool := pre.data.isPrefixOf s.data

/-- Python `s.endswith(suf)`. -/
def pyEndsWith (s suf : String) : Bool := suf.data.isSuffixOf s.data

/-- Python `s.strip()` (as performed by `int(...)` on its argument). -/
def pyStrip (s : String) : List Char :=
  ((s.data.dropWhile Char.isWhitespace).reverse.dropWhile Char.isWhitespace).reverse

/-- The decimal digit character for a value below ten. -/
def digitChar (d : Nat) : Char :=
  if d < 10 then Char.ofNat (48 + d) else '*'

/-- Decimal digit value of a character, `none` for non-digits. -/
def charDigit (c : Char) : Option Nat :=
  if '0' ≤ c ∧ c ≤ '9' then some (c.toNat - 48) else none

/-- Little-endian decimal digits of `n`, with explicit fuel (the fuel `n`
itself always suffices). -/
def decRevAux : Nat → Nat → List Nat
  | 0, _ => []
  | fuel + 1, n => if n = 0 then [] else n % 10 :: decRevAux fuel (n / 10)

/-- Decimal rendering of a natural number as characters. -/
def natRender (n : Nat) : List Char :=
  if n = 0 then ['0'] else ((decRevAux n n).reverse).map digitChar

/-- Parse a nonempty all-digit character list as a natural number. -/
def parseDigits (cs : List Char) : Option Nat :=
  if cs.isEmpty then none
  else cs.foldlM (fun acc c => (charDigit c).map (fun d => acc * 10 + d)) 0

/-- Model of `datetime.isoformat()` on the integer instant model. -/
def isoformat (t : Int) : String :=
  if t < 0 then String.mk ('-' :: natRender t.natAbs) else String.mk (natRender t.natAbs)

/-- Character-list worker of `fromisoformat`. -/
def fromisoChars : List Char → Option Int
  | [] => none
  | c :: rest =>
    if c = '-' then (parseDigits rest).map (fun (n : Nat) => -(n : Int))
    else (parseDigits (c :: rest)).map (fun (n : Nat) => (n : Int))

/-- Model of `datetime.fromisoformat` on the integer instant model
(`none` models the `ValueError` raised on malformed input). -/
def fromisoformat (s : String) : Option Int := fromisoChars s.data

/-- Python `int(s)`: strip whitespace, optional sign, decimal digits
(`none` models the `ValueError` on non-integer strings). -/
def pyInt (s : String) : Option Int :=
  match pyStrip s with
  | '-' :: rest => (parseDigits rest).map (fun (n : Nat) => -(n : Int))
  | '+' :: rest => (parseDigits rest).map (fun (n : Nat) => (n : Int))
  | cs => (parseDigits cs).map (fun (n : Nat) => (n : Int))

/-- Python `l[i]` with negative (from-the-end) indices; `none` models
`IndexError`. -/
def pyGet? (l : List α) (i : Int) : Option α :=
  if 0 ≤ i then l[i.toNat]?
  else if i.natAbs ≤ l.length then l[l.length - i.natAbs]? else none

/-- One version or delete-marker record, with the fields the module reads.
`LastModified` is a timezone-aware UTC instant (epoch seconds). -/
structure VersionRecord where
  VersionId : String
  LastModified : Int
  Size : Nat
  ETag : String
  IsLatest : Bool
deriving DecidableEq, Repr

/-- A record as written to the JSON cache: `LastModified` rendered to its
ISO-8601 string, all other fields copied (`serialize_version`). -/
structure SerializedRecord where
  VersionId : String
  LastModified : String
  Size : Nat
  ETag : String
  IsLatest : Bool
deriving DecidableEq, Repr

/-- Result of the external `dateparser.parse`: a wall-clock instant plus an
optional UTC offset in seconds (`tz = none` models a naive `datetime`). -/
structure PyDateTime where
  wall : Int
  tz : Option Int
deriving DecidableEq, Repr

/-- The aware instant denoted by a `PyDateTime` (meaningful once `tz` is
set; `datetime` comparison of aware values compares these). -/
def PyDateTime.instant (d : PyDateTime) : Int := d.wall - d.tz.getD 0

/-- The exceptions `translate_version` can raise: the two distinct
`ValueError` messages (the spec's `OutOfRangeError` and
`InvalidSpecifierError`) and an uncaught `IndexError`. -/
inductive PyErr where
  | valueError_outOfRange
  | valueError_invalidSpec
  | indexError
deriving DecidableEq, Repr

instance [DecidableEq ε] [DecidableEq α] : DecidableEq (Except ε α) := fun a b =>
  match a, b with
  | .ok x, .ok y =>
    if h : x = y then isTrue (by rw [h]) else isFalse (fun hh => by cases hh; exact h rfl)
  | .ok _, .error _ => isFalse (fun hh => by cases hh)
  | .error _, .ok _ => isFalse (fun hh => by cases hh)
  | .error x, .error y =>
    if h : x = y then isTrue (by rw [h]) else isFalse (fun hh => by cases hh; exact h rfl)

/-- `serialize_version`: copy the record, `LastModified` to ISO string. -/
def serialize_version (r : VersionRecord) : SerializedRecord :=
  ⟨r.VersionId, isoformat r.LastModified, r.Size, r.ETag, r.IsLatest⟩

/-- `unserialize_version`: copy the record, `LastModified` parsed back. -/
def unserialize_version (sr : SerializedRecord) : Option VersionRecord :=
  (fromisoformat sr.LastModified).map
    (fun t => ⟨sr.VersionId, t, sr.Size, sr.ETag, sr.IsLatest⟩)

/-- `VersionedObject`: all known history of one key. -/
structure VersionedObject where
  key : String
  versions : PyDict VersionRecord
  delete_markers : PyDict VersionRecord
deriving DecidableEq, Repr

/-- `add_version`: insert or overwrite by `VersionId`. -/
def VersionedObject.add_version (o : VersionedObject) (r : VersionRecord) :
    VersionedObject :=
  { o with versions := dictInsert o.versions r.VersionId r }

/-- `add_delete_marker`: insert or overwrite by `VersionId`. -/
def VersionedObject.add_delete_marker (o : VersionedObject) (r : VersionRecord) :
    VersionedObject :=
  { o with delete_markers := dictInsert o.delete_markers r.VersionId r }

/-- The serialized shape of one `VersionedObject` in the cache file. -/
structure SerializedVO where
  versions : List SerializedRecord
  delete_markers : List SerializedRecord
deriving DecidableEq, Repr

/-- `VersionedObject.serialize`. -/
def VersionedObject.serialize (o : VersionedObject) : SerializedVO :=
  ⟨(dictValues o.versions).map serialize_version,
   (dictValues o.delete_markers).map serialize_version⟩

/-- `get_latest_version`: `max(versions.values(), key=LastModified)`, or
`None` on empty; Python's `max` keeps the first maximal element. -/
def VersionedObject.get_latest_version (o : VersionedObject) :
    Option VersionRecord :=
  match dictValues o.versions with
  | [] => none
  | v :: vs =>
    some (vs.foldl (fun best w => if best.LastModified < w.LastModified then w else best) v)

/-- Comparison key of `sorted(self.versions.values(), key=LastModified)`. -/
def vLe (a b : VersionRecord) : Prop := a.LastModified ≤ b.LastModified

instance : DecidableRel vLe := fun a b =>
  inferInstanceAs (Decidable (a.LastModified ≤ b.LastModified))

instance : IsTotal VersionRecord vLe :=
  ⟨fun a b => Int.le_total a.LastModified b.LastModified⟩

instance : IsTrans VersionRecord vLe := ⟨fun _ _ _ h h' => le_trans h h'⟩

/-- `sorted_versions`: Python's `sorted` is a stable sort by the key, which
is exactly insertion sort with respect to `vLe`. -/
def VersionedObject.sorted_versions (o : VersionedObject) : List VersionRecord :=
  (dictValues o.versions).insertionSort vLe

/-- `is_deleted`. -/
def VersionedObject.is_deleted (o : VersionedObject) : Bool :=
  (dictValues o.delete_markers).any (fun dm => dm.IsLatest)

/-- `translate_version`, parametrized by the external `dateparser.parse`
(`dparse`). Follows the source line by line: identity short-circuit on the
`versions` keys, the three keyword groups, the date branch (a naive parse
result made UTC-aware), then `int(verspec)` indexing with the two
`ValueError` raise sites. -/
def VersionedObject.translate_version (dparse : String → Option PyDateTime)
    (o : VersionedObject) (verspec : String) : Except PyErr (Option String) :=
  if dictContains o.versions verspec = true then
    .ok (some verspec)
  else
    let vers := o.sorted_versions
    if verspec = "latest" ∨ verspec = "last" ∨ verspec = "newest" then
      .ok (vers.getLast?.map (fun v => v.VersionId))
    else if verspec = "oldest" ∨ verspec = "first" then
      if o.versions.isEmpty then .ok none
      else
        match vers.head? with
        | some v => .ok (some v.VersionId)
        | none => .error .indexError
    else if verspec = "previous" ∨ verspec = "prev" ∨ verspec = "p" then
      if vers.length < 2 then .ok none
      else
        match pyGet? vers (-2) with
        | some v => .ok (some v.VersionId)
        | none => .error .indexError
    else
      match dparse verspec with
      | some dt0 =>
        let dt := if dt0.tz.isSome then dt0 else { dt0 with tz := some 0 }
        let older := vers.filter (fun v => v.LastModified < dt.instant)
        .ok (older.getLast?.map (fun v => v.VersionId))
      | none =>
        match pyInt verspec with
        | some n =>
          match pyGet? vers n with
          | some v => .ok (some v.VersionId)
          | none => .error .valueError_outOfRange
        | none => .error .valueError_invalidSpec

/-- `VersionsIndex`: the bucket-wide mapping. -/
structure VersionsIndex where
  bucketname : String
  bucket_keys : PyDict VersionedObject
deriving DecidableEq, Repr

/-- `VersionsIndex.save`: the JSON document written to the cache file
(mapping key to serialized object, in dict order). -/
def VersionsIndex.save (idx : VersionsIndex) : PyDict SerializedVO :=
  idx.bucket_keys.map (fun p => (p.1, p.2.serialize))

/-- The body of `VersionsIndex.load` for one key: a fresh
`VersionedObject(key)`, versions then delete markers re-added;
`none` models an exception escaping from `unserialize_version`. -/
def loadVersionedObject (key : String) (d : SerializedVO) :
    Option VersionedObject := do
  let vrs ← d.versions.mapM unserialize_version
  let dms ← d.delete_markers.mapM unserialize_version
  pure (dms.foldl VersionedObject.add_delete_marker
    (vrs.foldl VersionedObject.add_version ⟨key, [], []⟩))

/-- `VersionsIndex.load`: an absent cache file (`none`) leaves the index
unchanged; otherwise every key of the document is rebuilt and stored. -/
def VersionsIndex.load (idx : VersionsIndex) (file : Option (PyDict SerializedVO)) :
    Option VersionsIndex :=
  match file with
  | none => some idx
  | some raw =>
    raw.foldlM
      (fun acc p => (loadVersionedObject p.1 p.2).map
        (fun vo => { acc with bucket_keys := dictInsert acc.bucket_keys p.1 vo }))
      idx

/-- `has_directory`: append `"/"` unless already present, then test
whether any key starts with the result. -/
def VersionsIndex.has_directory (idx : VersionsIndex) (dirname : String) : Bool :=
  let pfx := if pyEndsWith dirname "/" then dirname else dirname ++ "/"
  idx.bucket_keys.any (fun p => pyStartsWith p.1 pfx)

/-! ### Concrete fixtures

The two-version example object of the spec's testable-properties section
(`V1@2024-01-01T00:00:00Z` size 10, `V2@2024-06-01T00:00:00Z` size 20,
timestamps as epoch seconds), a one-version object, and small indexes. -/

def exampleRecordV1 : VersionRecord := ⟨"V1", 1704067200, 10, "etag1", false⟩

def exampleRecordV2 : VersionRecord := ⟨"V2", 1717200000, 20, "etag2", true⟩

def exampleObject : VersionedObject :=
  ((VersionedObject.mk "a.txt" [] []).add_version exampleRecordV1).add_version
    exampleRecordV2

/-- Modelled from the spec: the external `dateparser.parse` on the inputs
exercised by the spec's examples — an ISO date string parses to a
timezone-naive midnight instant of that date, while bare integer strings
such as `"99"`, `"-1"` or `"0"` are not date expressions (the spec routes
them to the integer-position branch). -/
def dateparser_parse : String → Option PyDateTime := fun s =>
  if s = "2024-03-01" then some ⟨1709251200, none⟩
  else if s = "2023-01-01" then some ⟨1672531200, none⟩
  else none

def exampleSingleRecord : VersionRecord := ⟨"S1", 500, 7, "es", false⟩

def exampleSingleObject : VersionedObject :=
  (VersionedObject.mk "one.txt" [] []).add_version exampleSingleRecord

/-- Two records sharing one `LastModified`, distinct identifiers. -/
def tieRecordA : VersionRecord := ⟨"a", 100, 1, "ea", false⟩

def tieRecordB : VersionRecord := ⟨"b", 100, 2, "eb", false⟩

/-- `tieRecordB` inserted first, then `tieRecordA`. -/
def tieObject1 : VersionedObject :=
  ((VersionedObject.mk "k" [] []).add_version tieRecordB).add_version tieRecordA

/-- The same two records inserted in the opposite order. -/
def tieObject2 : VersionedObject :=
  ((VersionedObject.mk "k" [] []).add_version tieRecordA).add_version tieRecordB

def exampleDeleteMarker : VersionRecord := ⟨"D", 600, 0, "ed", true⟩

/-- One version `V1` plus a delete marker whose identifier `"D"` is not a
key of `versions`. -/
def exampleDMObject : VersionedObject :=
  ((VersionedObject.mk "dm.txt" [] []).add_version exampleRecordV1).add_delete_marker
    exampleDeleteMarker

def exampleIndex : VersionsIndex := ⟨"bkt", [("a.txt", exampleObject), ("dm.txt", exampleDMObject)]⟩

def slashIndex : VersionsIndex := ⟨"b", [("a/b", VersionedObject.mk "a/b" [] [])]⟩

/-! ### Decimal rendering round trip -/

theorem foldr_decRevAux : ∀ (fuel n : Nat), n ≤ fuel →
    (decRevAux fuel n).foldr (fun d a => a * 10 + d) 0 = n
  | 0, n, h => by
    have : n = 0 := Nat.le_zero.mp h
    simp [decRevAux, this]
  | fuel + 1, n, h => by
    by_cases h0 : n = 0
    · simp [decRevAux, h0]
    · have hdiv : n / 10 ≤ fuel := by omega
      simp only [decRevAux, if_neg h0, List.foldr_cons]
      rw [foldr_decRevAux fuel (n / 10) hdiv]
      omega

theorem mem_decRevAux_lt : ∀ (fuel n d : Nat), d ∈ decRevAux fuel n → d < 10
  | 0, n, d, h => by simp [decRevAux] at h
  | fuel + 1, n, d, h => by
    by_cases h0 : n = 0
    · simp [decRevAux, h0] at h
    · simp only [decRevAux, if_neg h0, List.mem_cons] at h
      rcases h with h | h
      · omega
      · exact mem_decRevAux_lt fuel (n / 10) d h

theorem charDigit_digitChar (d : Nat) (h : d < 10) :
    charDigit (digitChar d) = some d := by
  interval_cases d <;> rfl

theorem digitChar_ne_dash (d : Nat) (h : d < 10) : digitChar d ≠ '-' := by
  interval_cases d <;> decide

theorem foldlM_digits : ∀ (ds : List Nat) (acc : Nat), (∀ d ∈ ds, d < 10) →
    List.foldlM (fun a c => (charDigit c).map (fun d => a * 10 + d)) acc
      (ds.map digitChar) = some (ds.foldl (fun a d => a * 10 + d) acc)
  | [], _, _ => rfl
  | d :: ds, acc, h => by
    have hd : d < 10 := h d (List.mem_cons_self d ds)
    simp only [List.map_cons, List.foldlM_cons, charDigit_digitChar d hd,
      Option.map_some', Option.bind_eq_bind, Option.some_bind, List.foldl_cons]
    exact foldlM_digits ds (acc * 10 + d) (fun x hx => h x (List.mem_cons_of_mem d hx))

theorem natRender_ne_nil (n : Nat) : natRender n ≠ [] := by
  unfold natRender
  by_cases h0 : n = 0
  · simp [h0]
  · rw [if_neg h0]
    cases n with
    | zero => exact absurd rfl h0
    | succ m =>
      simp only [decRevAux, if_neg h0]
      simp

theorem natRender_mem (n : Nat) (c : Char) (hc : c ∈ natRender n) :
    ∃ d, d < 10 ∧ c = digitChar d := by
  unfold natRender at hc
  by_cases h0 : n = 0
  · rw [if_pos h0] at hc
    refine ⟨0, by omega, ?_⟩
    simpa using hc
  · rw [if_neg h0] at hc
    obtain ⟨d, hd, hdc⟩ := List.mem_map.mp hc
    exact ⟨d, mem_decRevAux_lt n n d (List.mem_reverse.mp hd), hdc.symm⟩

theorem parseDigits_natRender (n : Nat) : parseDigits (natRender n) = some n := by
  by_cases h0 : n = 0
  · subst h0; rfl
  · unfold natRender
    rw [if_neg h0]
    unfold parseDigits
    have hne : decRevAux n n ≠ [] := by
      cases n with
      | zero => exact absurd rfl h0
      | succ m => simp [decRevAux]
    rw [if_neg (by simpa [List.isEmpty_iff] using hne)]
    rw [foldlM_digits ((decRevAux n n).reverse) 0
      (fun d hd => mem_decRevAux_lt n n d (List.mem_reverse.mp hd))]
    rw [List.foldl_reverse]
    exact congrArg some (foldr_decRevAux n n le_rfl)

theorem fromisoformat_isoformat (t : Int) : fromisoformat (isoformat t) = some t := by
  unfold fromisoformat isoformat
  by_cases ht : t < 0
  · rw [if_pos ht]
    show fromisoChars ('-' :: natRender t.natAbs) = some t
    simp only [fromisoChars, if_pos rfl, if_true, parseDigits_natRender, Option.map_some']
    congr 1
    omega
  · rw [if_neg ht]
    show fromisoChars (natRender t.natAbs) = some t
    obtain ⟨c, rest, hcr⟩ : ∃ c rest, natRender t.natAbs = c :: rest := by
      cases hn : natRender t.natAbs with
      | nil => exact absurd hn (natRender_ne_nil _)
      | cons c rest => exact ⟨c, rest, rfl⟩
    have hc : c ≠ '-' := by
      obtain ⟨d, hd10, hdc⟩ := natRender_mem t.natAbs c (hcr ▸ List.mem_cons_self c rest)
      exact hdc ▸ digitChar_ne_dash d hd10
    rw [hcr]
    simp only [fromisoChars, if_neg hc, ← hcr, parseDigits_natRender, Option.map_some']
    congr 1
    omega

theorem unserialize_serialize (r : VersionRecord) :
    unserialize_version (serialize_version r) = some r := by
  simp [unserialize_version, serialize_version, fromisoformat_isoformat]

/-! ### Dictionary and list helper lemmas -/

theorem dictContains_iff {α : Type} (d : PyDict α) (k : String) :
    dictContains d k = true ↔ k ∈ d.map Prod.fst := by
  simp only [dictContains, List.any_eq_true, List.mem_map, beq_iff_eq]

theorem dictInsert_not_contains {α : Type} (d : PyDict α) (k : String) (v : α)
    (h : dictContains d k = false) : dictInsert d k v = d ++ [(k, v)] := by
  simp [dictInsert, h]

/-- A list's `getLast?` value is one of its members. -/
theorem mem_of_getLast?_eq {α : Type} :
    ∀ (l : List α) (v : α), l.getLast? = some v → v ∈ l
  | [], v, h => by simp at h
  | [a], v, h => by
    simp only [List.getLast?_singleton, Option.some.injEq] at h
    simp [h]
  | a :: b :: rest, v, h => by
    have h' : (b :: rest).getLast? = some v := by
      simpa [List.getLast?_cons_cons] using h
    exact List.mem_cons_of_mem a (mem_of_getLast?_eq (b :: rest) v h')

/-- The last element of a `Pairwise r` list is an upper bound. -/
theorem getLast?_max {α : Type} {r : α → α → Prop} :
    ∀ (l : List α), l.Pairwise r → ∀ v, l.getLast? = some v →
      ∀ x ∈ l, x = v ∨ r x v
  | [], _, v, h => by simp at h
  | [a], _, v, h => by
    intro x hx
    simp only [List.getLast?_singleton, Option.some.injEq] at h
    simp only [List.mem_singleton] at hx
    left
    rw [hx, h]
  | a :: b :: rest, hp, v, h => by
    intro x hx
    have h' : (b :: rest).getLast? = some v := by
      simpa [List.getLast?_cons_cons] using h
    have hv : v ∈ b :: rest := mem_of_getLast?_eq (b :: rest) v h'
    rcases List.mem_cons.mp hx with hxa | hxm
    · right
      rw [hxa]
      exact (List.pairwise_cons.mp hp).1 v hv
    · exact getLast?_max (b :: rest) (List.pairwise_cons.mp hp).2 v h' x hxm

/-- `sorted_versions` is a permutation of `versions.values()`. -/
theorem sorted_versions_perm (o : VersionedObject) :
    o.sorted_versions.Perm (dictValues o.versions) :=
  List.perm_insertionSort vLe (dictValues o.versions)

theorem mem_sorted_versions {o : VersionedObject} {v : VersionRecord} :
    v ∈ o.sorted_versions ↔ v ∈ dictValues o.versions :=
  List.mem_insertionSort vLe

theorem length_sorted_versions (o : VersionedObject) :
    o.sorted_versions.length = (dictValues o.versions).length :=
  List.length_insertionSort vLe _

/-- `sorted_versions` is ascending in `LastModified`. -/
theorem sorted_versions_pairwise (o : VersionedObject) :
    o.sorted_versions.Pairwise vLe :=
  List.sorted_insertionSort vLe (dictValues o.versions)

/-! ### Branch dispatch of `translate_version` -/

theorem translate_version_date (dparse : String → Option PyDateTime)
    (o : VersionedObject) (spec : String) (d : PyDateTime)
    (hid : dictContains o.versions spec = false)
    (h1 : ¬(spec = "latest" ∨ spec = "last" ∨ spec = "newest"))
    (h2 : ¬(spec = "oldest" ∨ spec = "first"))
    (h3 : ¬(spec = "previous" ∨ spec = "prev" ∨ spec = "p"))
    (hdate : dparse spec = some d) :
    VersionedObject.translate_version dparse o spec =
      .ok (((o.sorted_versions.filter
        (fun v => v.LastModified < d.wall - d.tz.getD 0)).getLast?).map
          (fun v => v.VersionId)) := by
  unfold VersionedObject.translate_version
  rw [if_neg (by simp [hid]), if_neg h1, if_neg h2, if_neg h3, hdate]
  cases htz : d.tz with
  | none => simp [htz, PyDateTime.instant]
  | some z => simp [htz, PyDateTime.instant]

theorem translate_version_int (dparse : String → Option PyDateTime)
    (o : VersionedObject) (spec : String)
    (hid : dictContains o.versions spec = false)
    (h1 : ¬(spec = "latest" ∨ spec = "last" ∨ spec = "newest"))
    (h2 : ¬(spec = "oldest" ∨ spec = "first"))
    (h3 : ¬(spec = "previous" ∨ spec = "prev" ∨ spec = "p"))
    (hdate : dparse spec = none) :
    VersionedObject.translate_version dparse o spec =
      match pyInt spec with
      | some n =>
        match pyGet? o.sorted_versions n with
        | some v => .ok (some v.VersionId)
        | none => .error .valueError_outOfRange
      | none => .error .valueError_invalidSpec := by
  unfold VersionedObject.translate_version
  rw [if_neg (by simp [hid]), if_neg h1, if_neg h2, if_neg h3, hdate]

theorem pyGet?_nonneg {α : Type} (l : List α) (i : Int) (h : 0 ≤ i) :
    pyGet? l i = l[i.toNat]? := by
  simp [pyGet?, h]

theorem pyGet?_neg {α : Type} (l : List α) (i : Int) (h : i < 0)
    (hle : i.natAbs ≤ l.length) : pyGet? l i = l[l.length - i.natAbs]? := by
  rw [pyGet?, if_neg (by omega), if_pos hle]

theorem pyGet?_oob {α : Type} (l : List α) (i : Int)
    (h : (l.length : Int) ≤ i ∨ i < -(l.length : Int)) : pyGet? l i = none := by
  rcases h with h | h
  · rw [pyGet?, if_pos (by omega)]
    exact List.getElem?_eq_none (by omega)
  · rw [pyGet?, if_neg (by omega), if_neg (by omega)]

/-! ### The claims -/

/-- C1: when the specifier is not an existing version id, not a keyword and
not a date expression but parses as an integer `n`, `translate_version`
indexes `sorted_versions()` at the zero-based, Python-style (negatives
from the end) position `n`, and fails with the out-of-range `ValueError`
(the spec's `OutOfRangeError`) when `n` is out of bounds; on the spec's
two-version example, `"-1"` resolves to `V2` and `"99"` raises
out-of-range rather than being read as a date. -/
theorem C1_integer_position (dparse : String → Option PyDateTime)
    (o : VersionedObject) (spec : String) (n : Int)
    (hid : dictContains o.versions spec = false)
    (h1 : ¬(spec = "latest" ∨ spec = "last" ∨ spec = "newest"))
    (h2 : ¬(spec = "oldest" ∨ spec = "first"))
    (h3 : ¬(spec = "previous" ∨ spec = "prev" ∨ spec = "p"))
    (hdate : dparse spec = none)
    (hint : pyInt spec = some n) :
    ((∀ hnn : 0 ≤ n, ∀ hlt : n.toNat < o.sorted_versions.length,
        VersionedObject.translate_version dparse o spec =
          .ok (some (o.sorted_versions[n.toNat].VersionId)))
      ∧ (∀ hneg : n < 0, ∀ hle : n.natAbs ≤ o.sorted_versions.length,
          ∀ hlt : o.sorted_versions.length - n.natAbs < o.sorted_versions.length,
          VersionedObject.translate_version dparse o spec =
            .ok (some (o.sorted_versions[o.sorted_versions.length - n.natAbs].VersionId)))
      ∧ (((o.sorted_versions.length : Int) ≤ n ∨ n < -(o.sorted_versions.length : Int)) →
          VersionedObject.translate_version dparse o spec = .error .valueError_outOfRange))
    ∧ VersionedObject.translate_version dateparser_parse exampleObject "-1" = .ok (some "V2")
    ∧ VersionedObject.translate_version dateparser_parse exampleObject "99" =
        .error .valueError_outOfRange := by
  have hdisp := translate_version_int dparse o spec hid h1 h2 h3 hdate
  rw [hint] at hdisp
  simp only [] at hdisp
  refine ⟨⟨?_, ?_, ?_⟩, by decide, by decide⟩
  · intro hnn hlt
    rw [hdisp, pyGet?_nonneg _ _ hnn, List.getElem?_eq_getElem hlt]
  · intro hneg hle hlt
    rw [hdisp, pyGet?_neg _ _ hneg hle, List.getElem?_eq_getElem hlt]
  · intro hoob
    rw [hdisp, pyGet?_oob _ _ hoob]

theorem C1_integer_position_witness :
    VersionedObject.translate_version dateparser_parse exampleObject "0" = .ok (some "V1") := by
  have h := (C1_integer_position dateparser_parse exampleObject "0" 0 (by decide)
    (by decide) (by decide) (by decide) (by decide) (by decide)).1.1 (by decide) (by decide)
  exact h.trans (by decide)

/-- C3: the specifiers `"previous"`, `"prev"`, `"p"` (when not themselves
version ids) resolve to the second-to-last element of `sorted_versions()`
when at least two versions exist, and to `None` (no exception) when fewer
than two exist; on the two-version example they resolve to `V1`. -/
theorem C3_previous_specifier (dparse : String → Option PyDateTime)
    (o : VersionedObject) (spec : String)
    (hspec : spec = "previous" ∨ spec = "prev" ∨ spec = "p")
    (hid : dictContains o.versions spec = false) :
    (((dictValues o.versions).length < 2 →
        VersionedObject.translate_version dparse o spec = .ok none)
      ∧ (∀ h2 : 2 ≤ o.sorted_versions.length,
          ∀ hlt : o.sorted_versions.length - 2 < o.sorted_versions.length,
          VersionedObject.translate_version dparse o spec =
            .ok (some (o.sorted_versions[o.sorted_versions.length - 2].VersionId))))
    ∧ VersionedObject.translate_version dateparser_parse exampleObject "previous" =
        .ok (some "V1") := by
  have hbranch : VersionedObject.translate_version dparse o spec =
      if o.sorted_versions.length < 2 then .ok none
      else
        match pyGet? o.sorted_versions (-2) with
        | some v => .ok (some v.VersionId)
        | none => .error .indexError := by
    unfold VersionedObject.translate_version
    rcases hspec with h | h | h <;> subst h <;>
      rw [if_neg (by simp [hid]), if_neg (by decide), if_neg (by decide),
        if_pos (by decide)]
  refine ⟨⟨?_, ?_⟩, by decide⟩
  · intro hlen
    rw [hbranch, if_pos (by rw [length_sorted_versions]; exact hlen)]
  · intro h2 hlt
    rw [hbranch, if_neg (by omega),
      pyGet?_neg _ _ (by omega) (by simpa using h2),
      show ((-2 : Int).natAbs) = 2 from rfl,
      List.getElem?_eq_getElem hlt]

theorem C3_previous_specifier_witness :
    VersionedObject.translate_version dateparser_parse exampleSingleObject "prev" =
      .ok none :=
  (C3_previous_specifier dateparser_parse exampleSingleObject "prev"
    (by decide) (by decide)).1.1 (by decide)

/-- C4 counterexample: on an object with a single version, the specifier
`"previous"` does not fail with the out-of-range error the claim demands:
the code returns `None`. -/
theorem C4_counterexample :
    VersionedObject.translate_version dateparser_parse exampleSingleObject "previous" =
        .ok none
    ∧ VersionedObject.translate_version dateparser_parse exampleSingleObject "previous" ≠
        .error PyErr.valueError_outOfRange := by
  decide

/-- C4 (amended): for every `VersionedObject` with fewer than two versions,
`translate_version` on `"previous"` (also `"prev"`, `"p"`, when not version
ids) returns `None` without raising, matching §4.2 rather than the error
taxonomy's `OutOfRangeError`. -/
theorem C4_previous_returns_none (dparse : String → Option PyDateTime)
    (o : VersionedObject) (spec : String)
    (hspec : spec = "previous" ∨ spec = "prev" ∨ spec = "p")
    (hid : dictContains o.versions spec = false)
    (hlen : (dictValues o.versions).length < 2) :
    VersionedObject.translate_version dparse o spec = .ok none := by
  unfold VersionedObject.translate_version
  rcases hspec with h | h | h <;> subst h <;>
    rw [if_neg (by simp [hid]), if_neg (by decide), if_neg (by decide),
      if_pos (by decide), if_pos (by rw [length_sorted_versions]; exact hlen)]

theorem C4_previous_returns_none_witness :
    VersionedObject.translate_version dateparser_parse exampleSingleObject "p" = .ok none :=
  C4_previous_returns_none dateparser_parse exampleSingleObject "p"
    (by decide) (by decide) (by decide)

/-- C5 counterexample: two objects holding the same set of records (equal
`LastModified`, identifiers `"a"` and `"b"`) in opposite insertion orders:
`sorted_versions()` keeps insertion order on the tie instead of breaking it
by `version_id`, so its output is not a function of the record set. -/
theorem C5_counterexample :
    (dictValues tieObject1.versions).Perm (dictValues tieObject2.versions)
    ∧ VersionedObject.sorted_versions tieObject1 = [tieRecordB, tieRecordA]
    ∧ VersionedObject.sorted_versions tieObject2 = [tieRecordA, tieRecordB]
    ∧ VersionedObject.sorted_versions tieObject1 ≠ VersionedObject.sorted_versions tieObject2
    ∧ tieRecordA.VersionId ≠ tieRecordB.VersionId := by
  decide

/-- C5 (amended): `sorted_versions()` returns exactly the records of the
`versions` collection ordered ascending by `last_modified`; ties on equal
`last_modified` keep the collection's insertion order (the sort is stable),
not `version_id` order, so the output depends on insertion order. -/
theorem C5_sorted_versions_stable (o : VersionedObject) :
    o.sorted_versions.Perm (dictValues o.versions)
    ∧ o.sorted_versions.Pairwise vLe
    ∧ (∀ a b : VersionRecord, a.LastModified ≤ b.LastModified →
        List.Sublist [a, b] (dictValues o.versions) →
        List.Sublist [a, b] o.sorted_versions) :=
  ⟨sorted_versions_perm o, sorted_versions_pairwise o,
    fun _ _ hab hsub => List.pair_sublist_insertionSort hab hsub⟩

theorem C5_sorted_versions_stable_witness :
    List.Sublist [tieRecordB, tieRecordA] (VersionedObject.sorted_versions tieObject1) :=
  (C5_sorted_versions_stable tieObject1).2.2 tieRecordB tieRecordA
    (by decide) (by decide)

/-- C2: when the specifier is not an existing version id nor a keyword but
parses as a date/time expression, the result is the version id of the
version with the greatest `last_modified` strictly below the parsed
instant (a timezone-naive parse treated as UTC: the cutoff is
`wall - offset`, with offset 0 when naive), and `None` (no error) when no
version is strictly older; on the example object a date between the two
timestamps resolves to `V1` and a date before both resolves to `None`. -/
theorem C2_date_resolution (dparse : String → Option PyDateTime)
    (o : VersionedObject) (spec : String) (d : PyDateTime)
    (hid : dictContains o.versions spec = false)
    (h1 : ¬(spec = "latest" ∨ spec = "last" ∨ spec = "newest"))
    (h2 : ¬(spec = "oldest" ∨ spec = "first"))
    (h3 : ¬(spec = "previous" ∨ spec = "prev" ∨ spec = "p"))
    (hdate : dparse spec = some d) :
    (((∀ v ∈ dictValues o.versions, ¬(v.LastModified < d.wall - d.tz.getD 0)) →
        VersionedObject.translate_version dparse o spec = .ok none)
      ∧ ((∃ v ∈ dictValues o.versions, v.LastModified < d.wall - d.tz.getD 0) →
          ∃ v ∈ dictValues o.versions, v.LastModified < d.wall - d.tz.getD 0
            ∧ (∀ w ∈ dictValues o.versions, w.LastModified < d.wall - d.tz.getD 0 →
                w.LastModified ≤ v.LastModified)
            ∧ VersionedObject.translate_version dparse o spec = .ok (some v.VersionId)))
    ∧ VersionedObject.translate_version dateparser_parse exampleObject "2024-03-01" =
        .ok (some "V1")
    ∧ VersionedObject.translate_version dateparser_parse exampleObject "2023-01-01" =
        .ok none := by
  have hdisp := translate_version_date dparse o spec d hid h1 h2 h3 hdate
  refine ⟨⟨?_, ?_⟩, by decide, by decide⟩
  · intro hnone
    have hfil : o.sorted_versions.filter
        (fun v => v.LastModified < d.wall - d.tz.getD 0) = [] := by
      rw [List.filter_eq_nil_iff]
      intro v hv
      simpa using hnone v (mem_sorted_versions.mp hv)
    rw [hdisp, hfil]
    rfl
  · rintro ⟨v0, hv0m, hv0lt⟩
    set older := o.sorted_versions.filter
      (fun v => v.LastModified < d.wall - d.tz.getD 0) with holder
    have hv0older : v0 ∈ older := by
      rw [holder, List.mem_filter]
      exact ⟨mem_sorted_versions.mpr hv0m, by simpa using hv0lt⟩
    have hne : older ≠ [] := fun h => by simp [h] at hv0older
    obtain ⟨m, hm⟩ : ∃ m, older.getLast? = some m := by
      cases h : older.getLast? with
      | none => exact absurd (List.getLast?_eq_none_iff.mp h) hne
      | some m => exact ⟨m, rfl⟩
    have hmo : m ∈ older := mem_of_getLast?_eq older m hm
    have hmmem : m ∈ dictValues o.versions := by
      rw [holder, List.mem_filter] at hmo
      exact mem_sorted_versions.mp hmo.1
    have hmlt : m.LastModified < d.wall - d.tz.getD 0 := by
      rw [holder, List.mem_filter] at hmo
      simpa using hmo.2
    have hpw : older.Pairwise vLe :=
      List.Pairwise.sublist (List.filter_sublist o.sorted_versions)
        (sorted_versions_pairwise o)
    refine ⟨m, hmmem, hmlt, ?_, ?_⟩
    · intro w hw hwlt
      have hwolder : w ∈ older := by
        rw [holder, List.mem_filter]
        exact ⟨mem_sorted_versions.mpr hw, by simpa using hwlt⟩
      rcases getLast?_max older hpw m hm w hwolder with h | h
      · rw [h]
      · exact h
    · rw [hdisp, hm]
      rfl

theorem C2_date_resolution_witness :
    VersionedObject.translate_version dateparser_parse exampleObject "2023-01-01" =
      .ok none := by
  have h := (C2_date_resolution dateparser_parse exampleObject "2023-01-01"
    ⟨1672531200, none⟩ (by decide) (by decide) (by decide) (by decide)
    (by decide)).1.1 (by decide)
  exact h

/-- Python's `max(..., key=LastModified)` scan keeps an element of the list
and bounds every element's key. -/
theorem foldl_pymax (vs : List VersionRecord) (v : VersionRecord) :
    (vs.foldl (fun best w => if best.LastModified < w.LastModified then w else best) v)
        ∈ v :: vs
    ∧ ∀ w ∈ v :: vs, w.LastModified ≤
        (vs.foldl (fun best w =>
          if best.LastModified < w.LastModified then w else best) v).LastModified := by
  induction vs generalizing v with
  | nil => exact ⟨List.mem_singleton.mpr rfl, by simp⟩
  | cons u us ih =>
    obtain ⟨hmem, hge⟩ := ih (if v.LastModified < u.LastModified then u else v)
    have hvb : v.LastModified ≤
        (if v.LastModified < u.LastModified then u else v).LastModified := by
      split <;> omega
    have hub : u.LastModified ≤
        (if v.LastModified < u.LastModified then u else v).LastModified := by
      split <;> omega
    rw [List.foldl_cons]
    constructor
    · rcases List.mem_cons.mp hmem with h | h
      · rw [h]
        split
        · exact List.mem_cons_of_mem v (List.mem_cons_self u us)
        · exact List.mem_cons_self v _
      · exact List.mem_cons_of_mem v (List.mem_cons_of_mem u h)
    · intro w hw
      rcases List.mem_cons.mp hw with h | hw'
      · rw [h]
        exact le_trans hvb (hge _ (List.mem_cons_self _ us))
      · rcases List.mem_cons.mp hw' with h | h
        · rw [h]
          exact le_trans hub (hge _ (List.mem_cons_self _ us))
        · exact hge w (List.mem_cons_of_mem _ h)

/-- C7: `get_latest_version` returns `None` exactly on an empty `versions`
collection, otherwise a stored record of maximal `last_modified`;
`translate_version "latest"` (when `"latest"` is not a version id, with
pairwise-distinct timestamps making "the" maximum well defined) returns
that record's version id; on a single-version object `"latest"`,
`"oldest"` and position `"0"` all resolve to the same version id. -/
theorem C7_latest_version (dparse : String → Option PyDateTime) (o : VersionedObject) :
    (o.get_latest_version = none ↔ dictValues o.versions = [])
    ∧ (∀ r, o.get_latest_version = some r →
        r ∈ dictValues o.versions
        ∧ ∀ w ∈ dictValues o.versions, w.LastModified ≤ r.LastModified)
    ∧ (dictContains o.versions "latest" = false →
        ((dictValues o.versions).map VersionRecord.LastModified).Nodup →
        ∀ r, o.get_latest_version = some r →
        VersionedObject.translate_version dparse o "latest" = .ok (some r.VersionId))
    ∧ (∀ k r, o.versions = [(k, r)] → r.VersionId = k → dparse "0" = none →
        VersionedObject.translate_version dparse o "latest" = .ok (some r.VersionId)
        ∧ VersionedObject.translate_version dparse o "oldest" = .ok (some r.VersionId)
        ∧ VersionedObject.translate_version dparse o "0" = .ok (some r.VersionId)) := by
  have hB : ∀ r, o.get_latest_version = some r →
      r ∈ dictValues o.versions
      ∧ ∀ w ∈ dictValues o.versions, w.LastModified ≤ r.LastModified := by
    intro r hr
    cases hv : dictValues o.versions with
    | nil => simp [VersionedObject.get_latest_version, hv] at hr
    | cons v vs =>
      simp only [VersionedObject.get_latest_version, hv, Option.some.injEq] at hr
      obtain ⟨hmem, hge⟩ := foldl_pymax vs v
      rw [hr] at hmem hge
      exact ⟨hv ▸ hmem, hv ▸ hge⟩
  refine ⟨?_, hB, ?_, ?_⟩
  · cases hv : dictValues o.versions <;>
      simp [VersionedObject.get_latest_version, hv]
  · intro hid hnodup r hr
    obtain ⟨hrmem, hrge⟩ := hB r hr
    unfold VersionedObject.translate_version
    rw [if_neg (by simp [hid]), if_pos (Or.inl rfl)]
    have hne : o.sorted_versions ≠ [] := by
      intro h
      have := sorted_versions_perm o
      rw [h] at this
      rw [← this.nil_eq] at hrmem
      simp at hrmem
    obtain ⟨m, hm⟩ : ∃ m, o.sorted_versions.getLast? = some m := by
      cases h : o.sorted_versions.getLast? with
      | none => exact absurd (List.getLast?_eq_none_iff.mp h) hne
      | some m => exact ⟨m, rfl⟩
    have hmmem : m ∈ dictValues o.versions :=
      mem_sorted_versions.mp (mem_of_getLast?_eq _ m hm)
    have hmge : ∀ w ∈ dictValues o.versions, w.LastModified ≤ m.LastModified := by
      intro w hw
      rcases getLast?_max o.sorted_versions (sorted_versions_pairwise o) m hm w
        (mem_sorted_versions.mpr hw) with h | h
      · rw [h]
      · exact h
    have heq : m = r := by
      have h1 : m.LastModified = r.LastModified :=
        le_antisymm (hrge m hmmem) (hmge r hrmem)
      exact List.inj_on_of_nodup_map hnodup hmmem hrmem h1
    rw [hm]
    simp [heq]
  · intro k r hver hvid h0
    have hvals : dictValues o.versions = [r] := by rw [hver]; rfl
    have hsorted : o.sorted_versions = [r] := by
      unfold VersionedObject.sorted_versions
      rw [hvals]
      simp [List.insertionSort, List.orderedInsert]
    refine ⟨?_, ?_, ?_⟩
    · by_cases hk : k = "latest"
      · unfold VersionedObject.translate_version
        rw [if_pos (by simp [dictContains, hver, hk])]
        rw [hvid, hk]
      · unfold VersionedObject.translate_version
        rw [if_neg (by simp [dictContains, hver, hk]), if_pos (Or.inl rfl), hsorted]
        rfl
    · by_cases hk : k = "oldest"
      · unfold VersionedObject.translate_version
        rw [if_pos (by simp [dictContains, hver, hk])]
        rw [hvid, hk]
      · unfold VersionedObject.translate_version
        rw [if_neg (by simp [dictContains, hver, hk]), if_neg (by decide),
          if_pos (Or.inl rfl), if_neg (by simp [hver]), hsorted]
        rfl
    · by_cases hk : k = "0"
      · unfold VersionedObject.translate_version
        rw [if_pos (by simp [dictContains, hver, hk])]
        rw [hvid, hk]
      · have hid : dictContains o.versions "0" = false := by
          simp [dictContains, hver, hk]
        have hdisp := translate_version_int dparse o "0" hid (by decide) (by decide)
          (by decide) h0
        rw [show pyInt "0" = some 0 from by decide] at hdisp
        simp only [] at hdisp
        rw [hdisp, hsorted]
        simp [pyGet?]

theorem C7_latest_version_witness :
    VersionedObject.translate_version dateparser_parse exampleSingleObject "latest" =
        .ok (some "S1")
    ∧ VersionedObject.translate_version dateparser_parse exampleSingleObject "oldest" =
        .ok (some "S1")
    ∧ VersionedObject.translate_version dateparser_parse exampleSingleObject "0" =
        .ok (some "S1") := by
  have h := (C7_latest_version dateparser_parse exampleSingleObject).2.2.2
    "S1" exampleSingleRecord (by decide) (by decide) (by decide)
  exact ⟨h.1, h.2.1, h.2.2⟩

/-- C8 counterexample: with the single key `"a/b"`, `has_directory "a/"`
returns true although no key starts with `"a/" + "/"`; when the name
already ends in `"/"` the code does not append another slash. -/
theorem C8_counterexample :
    VersionsIndex.has_directory slashIndex "a/" = true
    ∧ slashIndex.bucket_keys.all (fun p => !(pyStartsWith p.1 ("a/" ++ "/"))) = true := by
  decide

/-- C8 (amended): `has_directory(name)` is true iff some key starts with
`name` when `name` already ends with `"/"`, and with `name + "/"`
otherwise. -/
theorem C8_has_directory (idx : VersionsIndex) (dirname : String) :
    idx.has_directory dirname = true ↔
      ∃ p ∈ idx.bucket_keys,
        pyStartsWith p.1
          (if pyEndsWith dirname "/" then dirname else dirname ++ "/") = true := by
  unfold VersionsIndex.has_directory
  simp [List.any_eq_true]

/-- C10: `translate_version` never consults `delete_markers` — its result
is unchanged under any replacement of that mapping — and a specifier equal
to a delete-marker id absent from `versions` is not returned unchanged but
falls through (here, to the invalid-specifier error). -/
theorem C10_delete_markers_ignored :
    (∀ (dparse : String → Option PyDateTime) (o : VersionedObject)
        (dms : PyDict VersionRecord) (spec : String),
        VersionedObject.translate_version dparse { o with delete_markers := dms } spec =
          VersionedObject.translate_version dparse o spec)
    ∧ dictContains exampleDMObject.delete_markers "D" = true
    ∧ dictContains exampleDMObject.versions "D" = false
    ∧ VersionedObject.translate_version dateparser_parse exampleDMObject "D" =
        .error PyErr.valueError_invalidSpec := by
  exact ⟨fun dparse o dms spec => rfl, by decide, by decide, by decide⟩

theorem map_fst_dictInsert {α : Type} (d : PyDict α) (k : String) (v : α) :
    (dictInsert d k v).map Prod.fst =
      if dictContains d k then d.map Prod.fst else d.map Prod.fst ++ [k] := by
  unfold dictInsert
  split
  · rw [List.map_map]
    apply List.map_congr_left
    intro p hp
    simp only [Function.comp_apply]
    split
    · rename_i h2
      exact (beq_iff_eq.mp h2).symm
    · rfl
  · simp

theorem toFinset_keys_add_version (o : VersionedObject) (r : VersionRecord) :
    ((o.add_version r).versions.map Prod.fst).toFinset =
      (o.versions.map Prod.fst).toFinset ∪ {r.VersionId} := by
  show ((dictInsert o.versions r.VersionId r).map Prod.fst).toFinset = _
  rw [map_fst_dictInsert]
  split
  · rename_i h
    have hmem : r.VersionId ∈ o.versions.map Prod.fst := (dictContains_iff _ _).mp h
    exact (Finset.union_eq_left.mpr (by simp [List.mem_toFinset, hmem])).symm
  · ext x
    simp [or_comm]

theorem nodup_keys_add_version (o : VersionedObject) (r : VersionRecord)
    (h : (o.versions.map Prod.fst).Nodup) :
    ((o.add_version r).versions.map Prod.fst).Nodup := by
  show ((dictInsert o.versions r.VersionId r).map Prod.fst).Nodup
  rw [map_fst_dictInsert]
  split
  · exact h
  · rename_i hc
    have : r.VersionId ∉ o.versions.map Prod.fst := by
      intro hmem
      rw [(dictContains_iff _ _).mpr hmem] at hc
      exact hc rfl
    simp [List.nodup_append, h, this]

theorem keys_foldl_add_version (rs : List VersionRecord) : ∀ (o : VersionedObject),
    (((rs.foldl VersionedObject.add_version o).versions.map Prod.fst).toFinset =
      (o.versions.map Prod.fst).toFinset ∪ (rs.map VersionRecord.VersionId).toFinset)
    ∧ ((o.versions.map Prod.fst).Nodup →
        ((rs.foldl VersionedObject.add_version o).versions.map Prod.fst).Nodup) := by
  induction rs with
  | nil => intro o; simp
  | cons r rs ih =>
    intro o
    rw [List.foldl_cons]
    obtain ⟨h1, h2⟩ := ih (o.add_version r)
    constructor
    · rw [h1, toFinset_keys_add_version]
      ext x
      simp
      tauto
    · intro h
      exact h2 (nodup_keys_add_version o r h)

theorem dictGet?_cons_ne {α : Type} (p : String × α) (ps : PyDict α) (k : String)
    (h : p.1 ≠ k) : dictGet? (p :: ps) k = dictGet? ps k := by
  unfold dictGet?
  rw [List.find?_cons_of_neg]
  simpa using h

theorem dictGet?_dictInsert {α : Type} :
    ∀ (d : PyDict α) (k : String) (v : α), dictGet? (dictInsert d k v) k = some v
  | [], k, v => by simp [dictInsert, dictContains, dictGet?]
  | p :: ps, k, v => by
    by_cases hp : p.1 = k
    · have hc : dictContains (p :: ps) k = true := by simp [dictContains, hp]
      rw [dictInsert, if_pos hc]
      simp [dictGet?, List.find?_cons_of_pos, hp]
    · have hcsplit : dictContains (p :: ps) k = dictContains ps k := by
        simp [dictContains, hp]
      by_cases hc : dictContains ps k = true
      · rw [dictInsert, if_pos (hcsplit.trans hc), List.map_cons]
        have ih := dictGet?_dictInsert ps k v
        rw [dictInsert, if_pos hc] at ih
        rw [if_neg (by simpa using hp)]
        rw [dictGet?_cons_ne p _ k hp]
        exact ih
      · have hc' : dictContains (p :: ps) k = false := by
          rw [hcsplit]
          exact Bool.not_eq_true _ ▸ hc
      -- not contained: appended at the end
        rw [dictInsert, if_neg (by simp [hc']), List.cons_append]
        rw [dictGet?_cons_ne p _ k hp]
        have ih := dictGet?_dictInsert ps k v
        rw [dictInsert, if_neg (by simp [hc])] at ih
        exact ih

/-- C9: folding `add_version` over any record list gives exactly one entry
per distinct `VersionId`; re-adding a present identifier keeps the count
and replaces the stored record. -/
theorem C9_add_version_count :
    (∀ (key : String) (rs : List VersionRecord),
        ((rs.foldl VersionedObject.add_version ⟨key, [], []⟩).versions).length =
          (rs.map VersionRecord.VersionId).dedup.length)
    ∧ (∀ (o : VersionedObject) (r : VersionRecord),
        dictContains o.versions r.VersionId = true →
        ((o.add_version r).versions.length = o.versions.length
          ∧ dictGet? (o.add_version r).versions r.VersionId = some r)) := by
  constructor
  · intro key rs
    obtain ⟨hfin, hnd⟩ := keys_foldl_add_version rs ⟨key, [], []⟩
    have hnd' := hnd (by simp)
    calc ((rs.foldl VersionedObject.add_version ⟨key, [], []⟩).versions).length
        = (((rs.foldl VersionedObject.add_version ⟨key, [], []⟩).versions).map
            Prod.fst).length := (List.length_map _ _).symm
      _ = (((rs.foldl VersionedObject.add_version ⟨key, [], []⟩).versions).map
            Prod.fst).toFinset.card := (List.toFinset_card_of_nodup hnd').symm
      _ = (rs.map VersionRecord.VersionId).toFinset.card := by
            rw [hfin]; simp
      _ = (rs.map VersionRecord.VersionId).dedup.length :=
            List.card_toFinset _
  · intro o r hc
    constructor
    · show (dictInsert o.versions r.VersionId r).length = o.versions.length
      rw [dictInsert, if_pos hc, List.length_map]
    · exact dictGet?_dictInsert o.versions r.VersionId r

/-- A V1 record re-added with updated size and hash. -/
def updatedRecordV1 : VersionRecord := ⟨"V1", 1704067200, 11, "etag1b", false⟩

theorem C9_add_version_count_witness :
    (exampleObject.add_version updatedRecordV1).versions.length =
        exampleObject.versions.length
    ∧ dictGet? (exampleObject.add_version updatedRecordV1).versions "V1" =
        some updatedRecordV1 := by
  have h := C9_add_version_count.2 exampleObject updatedRecordV1 (by decide)
  exact ⟨h.1, h.2⟩

/-- Well-formedness a real Python dict keyed by `VersionId` always has:
keys are pairwise distinct and each record is stored under its own id. -/
abbrev PyDictWF (d : PyDict VersionRecord) : Prop :=
  (d.map Prod.fst).Nodup ∧ ∀ p ∈ d, p.2.VersionId = p.1

theorem mapM_unserialize_serialize : ∀ (l : List VersionRecord),
    (l.map serialize_version).mapM unserialize_version = some l
  | [] => rfl
  | r :: rs => by
    simp only [List.map_cons, List.mapM_cons, unserialize_serialize r,
      mapM_unserialize_serialize rs, Option.pure_def, Option.bind_eq_bind,
      Option.some_bind]

theorem dictContains_append {α : Type} (a b : PyDict α) (k : String) :
    dictContains (a ++ b) k = (dictContains a k || dictContains b k) := by
  simp [dictContains, List.any_append]

theorem foldl_add_version_eq_append :
    ∀ (d : PyDict VersionRecord) (vo : VersionedObject),
    (∀ p ∈ d, p.2.VersionId = p.1) →
    (d.map Prod.fst).Nodup →
    (∀ p ∈ d, dictContains vo.versions p.1 = false) →
    (dictValues d).foldl VersionedObject.add_version vo =
      { vo with versions := vo.versions ++ d }
  | [], vo, _, _, _ => by simp [dictValues]
  | (k, r) :: ps, vo, hvid, hnodup, hfresh => by
    have hrk : r.VersionId = k := hvid (k, r) (List.mem_cons_self _ _)
    have h1 : dictContains vo.versions k = false :=
      hfresh (k, r) (List.mem_cons_self _ _)
    have hknotin : k ∉ ps.map Prod.fst := by
      simpa using hnodup.not_mem
    simp only [dictValues, List.map_cons, List.foldl_cons]
    have hstep : vo.add_version r = { vo with versions := vo.versions ++ [(k, r)] } := by
      unfold VersionedObject.add_version
      rw [hrk, dictInsert_not_contains _ _ _ h1]
    rw [hstep]
    have ih := foldl_add_version_eq_append ps
      { vo with versions := vo.versions ++ [(k, r)] }
      (fun p hp => hvid p (List.mem_cons_of_mem _ hp))
      (by simpa using hnodup.of_cons)
      (by
        intro p hp
        rw [dictContains_append]
        have hp1 : dictContains vo.versions p.1 = false :=
          hfresh p (List.mem_cons_of_mem _ hp)
        have hp2 : dictContains [(k, r)] p.1 = false := by
          have : p.1 ≠ k := by
            intro hpk
            exact hknotin (hpk ▸ List.mem_map_of_mem Prod.fst hp)
          simp [dictContains, this]
          intro h
          exact absurd h.symm this
        rw [hp1, hp2]
        rfl)
    rw [show (dictValues ps) = ps.map Prod.snd from rfl] at ih
    rw [ih]
    simp

theorem foldl_add_delete_marker_eq_append :
    ∀ (d : PyDict VersionRecord) (vo : VersionedObject),
    (∀ p ∈ d, p.2.VersionId = p.1) →
    (d.map Prod.fst).Nodup →
    (∀ p ∈ d, dictContains vo.delete_markers p.1 = false) →
    (dictValues d).foldl VersionedObject.add_delete_marker vo =
      { vo with delete_markers := vo.delete_markers ++ d }
  | [], vo, _, _, _ => by simp [dictValues]
  | (k, r) :: ps, vo, hvid, hnodup, hfresh => by
    have hrk : r.VersionId = k := hvid (k, r) (List.mem_cons_self _ _)
    have h1 : dictContains vo.delete_markers k = false :=
      hfresh (k, r) (List.mem_cons_self _ _)
    have hknotin : k ∉ ps.map Prod.fst := by
      simpa using hnodup.not_mem
    simp only [dictValues, List.map_cons, List.foldl_cons]
    have hstep : vo.add_delete_marker r =
        { vo with delete_markers := vo.delete_markers ++ [(k, r)] } := by
      unfold VersionedObject.add_delete_marker
      rw [hrk, dictInsert_not_contains _ _ _ h1]
    rw [hstep]
    have ih := foldl_add_delete_marker_eq_append ps
      { vo with delete_markers := vo.delete_markers ++ [(k, r)] }
      (fun p hp => hvid p (List.mem_cons_of_mem _ hp))
      (by simpa using hnodup.of_cons)
      (by
        intro p hp
        rw [dictContains_append]
        have hp1 : dictContains vo.delete_markers p.1 = false :=
          hfresh p (List.mem_cons_of_mem _ hp)
        have hp2 : dictContains [(k, r)] p.1 = false := by
          have : p.1 ≠ k := by
            intro hpk
            exact hknotin (hpk ▸ List.mem_map_of_mem Prod.fst hp)
          simp [dictContains, this]
          intro h
          exact absurd h.symm this
        rw [hp1, hp2]
        rfl)
    rw [show (dictValues ps) = ps.map Prod.snd from rfl] at ih
    rw [ih]
    simp

theorem loadVersionedObject_serialize (key : String) (o : VersionedObject)
    (hv : PyDictWF o.versions) (hd : PyDictWF o.delete_markers) :
    loadVersionedObject key o.serialize =
      some ⟨key, o.versions, o.delete_markers⟩ := by
  unfold loadVersionedObject VersionedObject.serialize
  rw [mapM_unserialize_serialize, mapM_unserialize_serialize]
  simp only [Option.pure_def, Option.bind_eq_bind, Option.some_bind]
  rw [foldl_add_version_eq_append o.versions ⟨key, [], []⟩ hv.2 hv.1
    (fun p _ => rfl)]
  rw [foldl_add_delete_marker_eq_append o.delete_markers ⟨key, [] ++ o.versions, []⟩
    hd.2 hd.1 (fun p _ => rfl)]
  simp

/-- The versioned object `load` rebuilds for one entry of the saved
document: same key, versions and delete markers, the `key` field reset to
the map key. -/
def reloadEntry (p : String × VersionedObject) : String × VersionedObject :=
  (p.1, ⟨p.1, p.2.versions, p.2.delete_markers⟩)

theorem load_foldlM_eq :
    ∀ (bk : PyDict VersionedObject) (acc : VersionsIndex),
    (bk.map Prod.fst).Nodup →
    (∀ p ∈ bk, PyDictWF p.2.versions ∧ PyDictWF p.2.delete_markers) →
    (∀ p ∈ bk, dictContains acc.bucket_keys p.1 = false) →
    (bk.map (fun p => (p.1, p.2.serialize))).foldlM
      (fun acc2 p => (loadVersionedObject p.1 p.2).map
        (fun vo => { acc2 with bucket_keys := dictInsert acc2.bucket_keys p.1 vo }))
      acc =
    some { acc with bucket_keys := acc.bucket_keys ++ bk.map reloadEntry }
  | [], acc, _, _, _ => by simp
  | (k, vo) :: ps, acc, hnodup, hwf, hfresh => by
    have hwfk := hwf (k, vo) (List.mem_cons_self _ _)
    have hfreshk : dictContains acc.bucket_keys k = false :=
      hfresh (k, vo) (List.mem_cons_self _ _)
    have hknotin : k ∉ ps.map Prod.fst := by
      simpa using hnodup.not_mem
    simp only [List.map_cons, List.foldlM_cons]
    rw [loadVersionedObject_serialize k vo hwfk.1 hwfk.2]
    simp only [Option.map_some', Option.bind_eq_bind, Option.some_bind]
    rw [dictInsert_not_contains _ _ _ hfreshk]
    have ih := load_foldlM_eq ps
      { acc with bucket_keys := acc.bucket_keys ++ [reloadEntry (k, vo)] }
      (by simpa using hnodup.of_cons)
      (fun p hp => hwf p (List.mem_cons_of_mem _ hp))
      (by
        intro p hp
        rw [dictContains_append]
        have hp1 : dictContains acc.bucket_keys p.1 = false :=
          hfresh p (List.mem_cons_of_mem _ hp)
        have hpk : p.1 ≠ k := by
          intro hpk
          exact hknotin (hpk ▸ List.mem_map_of_mem Prod.fst hp)
        have hp2 : dictContains [reloadEntry (k, vo)] p.1 = false := by
          simp [dictContains, reloadEntry, hpk]
          intro h
          exact absurd h.symm hpk
        rw [hp1, hp2]
        rfl)
    rw [show reloadEntry (k, vo) =
      (k, (⟨k, vo.versions, vo.delete_markers⟩ : VersionedObject)) from rfl] at ih
    rw [ih]
    simp [reloadEntry]

/-- C6: `save()` followed by `load()` on a fresh index of the same bucket
name reproduces the index: the load succeeds, the key sequence is
identical, and every key holds version and delete-marker collections equal
field by field (timestamps included, via the ISO round trip). -/
theorem C6_save_load_roundtrip (idx : VersionsIndex)
    (hkeys : (idx.bucket_keys.map Prod.fst).Nodup)
    (hwf : ∀ p ∈ idx.bucket_keys, PyDictWF p.2.versions ∧ PyDictWF p.2.delete_markers) :
    ∃ idx2, VersionsIndex.load ⟨idx.bucketname, []⟩ (some idx.save) = some idx2
      ∧ idx2.bucketname = idx.bucketname
      ∧ idx2.bucket_keys.map Prod.fst = idx.bucket_keys.map Prod.fst
      ∧ List.Forall₂ (fun q p => q.1 = p.1
          ∧ q.2.versions = p.2.versions
          ∧ q.2.delete_markers = p.2.delete_markers)
        idx2.bucket_keys idx.bucket_keys := by
  refine ⟨⟨idx.bucketname, idx.bucket_keys.map reloadEntry⟩, ?_, rfl, ?_, ?_⟩
  · unfold VersionsIndex.load VersionsIndex.save
    simp only []
    rw [load_foldlM_eq idx.bucket_keys ⟨idx.bucketname, []⟩ hkeys hwf
      (fun p _ => rfl)]
    simp
  · rw [List.map_map]
    rfl
  · rw [List.forall₂_map_left_iff, List.forall₂_same]
    intro p _
    exact ⟨rfl, rfl, rfl⟩

theorem C6_save_load_roundtrip_witness :
    ∃ idx2, VersionsIndex.load ⟨exampleIndex.bucketname, []⟩ (some exampleIndex.save) =
        some idx2
      ∧ idx2.bucketname = exampleIndex.bucketname
      ∧ idx2.bucket_keys.map Prod.fst = exampleIndex.bucket_keys.map Prod.fst
      ∧ List.Forall₂ (fun q p => q.1 = p.1
          ∧ q.2.versions = p.2.versions
          ∧ q.2.delete_markers = p.2.delete_markers)
        idx2.bucket_keys exampleIndex.bucket_keys :=
  C6_save_load_roundtrip exampleIndex (by decide) (by decide)
